import Mathlib

/-!
Shallow embedding of the suffix-scheme core of the `file-rotate` crate
(`src/suffix.rs` and `src/suffix/time.rs`).

Strings from the Rust side are modelled as Lean `String` / `List Char`;
Rust's byte-wise lexicographic comparison of UTF-8 strings coincides with
code-point-wise lexicographic comparison, which is what the comparators
below implement.  Machine integers (`usize`) are modelled as `Nat` with the
64-bit bound made explicit where the Rust code can reject an overflowing
value.  Fallible operations return `Option` / `Except`; the one place where
the Rust code can panic (an `assert!`) is modelled with an explicit
`panicked` outcome.
-/

namespace FileRotate

/-- Comparison of two `Char`s, modelling Rust's `char`/byte comparison
(by code point). -/
def charCmp (a b : Char) : Ordering :=
  if a < b then .lt else if a = b then .eq else .gt

/-- Lexicographic comparison of two lists of characters, modelling Rust's
`str::cmp` (byte-wise lexicographic on UTF-8, which agrees with
code-point-wise lexicographic order). -/
def listCharCmp : List Char → List Char → Ordering
  | [], [] => .eq
  | [], _ :: _ => .lt
  | _ :: _, [] => .gt
  | a :: as', b :: bs' =>
    match charCmp a b with
    | .eq => listCharCmp as' bs'
    | o => o

/-- Model of Rust's `String::cmp`. -/
def strCmp (a b : String) : Ordering :=
  listCharCmp a.data b.data

/-- Model of Rust's `<` on `String` (strict lexicographic order). -/
def strLtBool (a b : String) : Bool :=
  strCmp a b == .lt

/-- Comparison of `Option Nat`, modelling Rust's derived `Ord` for
`Option<usize>`: `None` is smaller than any `Some`. -/
def optNatCmp : Option Nat → Option Nat → Ordering
  | none, none => .eq
  | none, some _ => .lt
  | some _, none => .gt
  | some a, some b => compare a b

/-- `TimestampSuffix` from `src/suffix/time.rs`: the formatted timestamp
string together with an optional disambiguating number. -/
structure TimestampSuffix where
  timestamp : String
  number : Option Nat
  deriving DecidableEq, Repr

/-- `impl Ord for TimestampSuffix` (`src/suffix/time.rs`): reverse the
comparison of the timestamp strings, and on a tie reverse the comparison of
the numbers. -/
def tsCmp (a b : TimestampSuffix) : Ordering :=
  match strCmp b.timestamp a.timestamp with
  | .eq => optNatCmp b.number a.number
  | unequal => unequal

-- Sanity checks mirroring the `timestamp_ordering` unit test of the crate.
example : tsCmp ⟨"2021", none⟩ ⟨"2020", none⟩ = .lt := by decide
example : tsCmp ⟨"2021", some 1⟩ ⟨"2021", none⟩ = .lt := by decide

/-- Fuel-driven helper for `natToChars`; `fuel > n` suffices since the
number of decimal digits of `n` is at most `n + 1`. -/
def natToCharsAux : Nat → Nat → List Char
  | 0, _ => []
  | fuel + 1, n =>
    if n < 10 then [Char.ofNat (48 + n)]
    else natToCharsAux fuel (n / 10) ++ [Char.ofNat (48 + n % 10)]

/-- Decimal digits of a natural number, most significant first; model of
Rust's `Display` for `usize` (`n.to_string()`). -/
def natToChars (n : Nat) : List Char :=
  natToCharsAux (n + 1) n

/-- Value of a list of decimal digit characters (most significant first). -/
def digitsVal (cs : List Char) : Nat :=
  cs.foldl (fun a c => a * 10 + (c.toNat - 48)) 0

/-- Model of Rust's `str::parse::<usize>()` on the character list of the
input: an optional leading `+`, then one or more ASCII digits, rejecting
values that do not fit in 64 bits (`usize` is 64-bit here). -/
def parseUsizeChars (cs : List Char) : Option Nat :=
  let ds := if cs.head? = some '+' then cs.tail else cs
  if ds = [] then none
  else if ds.all Char.isDigit then
    let v := digitsVal ds
    if v < 2 ^ 64 then some v else none
  else none

/-- Model of Rust's `str::parse::<usize>()`. -/
def parseUsize (s : String) : Option Nat :=
  parseUsizeChars s.data

/-- `impl Display for TimestampSuffix` (`src/suffix/time.rs`):
`"{timestamp}"` without a number, `"{timestamp}.{number}"` with one. -/
def tsDisplay (s : TimestampSuffix) : String :=
  match s.number with
  | some n => s.timestamp ++ "." ++ String.mk (natToChars n)
  | none => s.timestamp

/-- Split a character list at the first `'.'`, modelling
`suffix.find('.')` followed by taking `suffix[..dot]` and
`suffix[(dot + 1)..]`: returns the part before the first dot and, if a dot
exists, the part after it. -/
def splitAtFirstDot : List Char → List Char × Option (List Char)
  | [] => ([], none)
  | c :: rest =>
    if c = '.' then ([], some rest)
    else
      let (pre, post) := splitAtFirstDot rest
      (c :: pre, post)

/-- Model of Rust's `str::strip_suffix` with a string pattern. -/
def listStripSuf (cs suf : List Char) : Option (List Char) :=
  if suf.isSuffixOf cs then some (cs.take (cs.length - suf.length)) else none

/-- Model of Rust's `str::strip_prefix` with a string pattern. -/
def listStripPre (pre cs : List Char) : Option (List Char) :=
  if pre.isPrefixOf cs then some (cs.drop pre.length) else none

example : natToChars 2024 = ['2', '0', '2', '4'] := by decide
example : parseUsize "123" = some 123 := by decide
example : parseUsize "+123" = some 123 := by decide
example : parseUsize "12a" = none := by decide
example : parseUsize "" = none := by decide
example : splitAtFirstDot "2021.1.2".data = ("2021".data, some "1.2".data) := by decide

/-!
### Model of the `chrono` formatting/parsing machinery used by the crate

`AppendTimestamp` formats instants with `DateTime::format` and validates
parsed timestamp strings with `NaiveDateTime::parse_from_str`, both from
the external `chrono` crate.  The model below covers the strftime items
the crate's formats use: the numeric specifiers `%Y %m %d %H %M %S`,
literal characters, `%%`, and whitespace; every other specifier is mapped
to `FmtItem.bad`, modelling `chrono`'s error item (theorems about
format-generic behaviour therefore hypothesise that the format stays
inside this modelled fragment).
-/

/-- One parsed strftime format item (`chrono::format::Item`), restricted to
the fragment described above. -/
inductive FmtItem where
  | lit (c : Char)
  | space (c : Char)
  | numYear
  | numMonth
  | numDay
  | numHour
  | numMinute
  | numSecond
  | bad
  deriving DecidableEq, Repr

/-- Model of `chrono::format::StrftimeItems`: turn a format string into
format items, one item per character (runs of literals/whitespace behave
identically item-by-item). -/
def strftimeItems : List Char → List FmtItem
  | [] => []
  | '%' :: c :: rest =>
    (match c with
     | 'Y' => .numYear
     | 'm' => .numMonth
     | 'd' => .numDay
     | 'H' => .numHour
     | 'M' => .numMinute
     | 'S' => .numSecond
     | '%' => .lit '%'
     | _ => .bad) :: strftimeItems rest
  | ['%'] => [.bad]
  | c :: rest => (if c.isWhitespace then .space c else .lit c) :: strftimeItems rest

/-- A civil (calendar) date-time, the part of a `chrono` local date-time
that the modelled format items can observe. -/
structure CivilDT where
  year : Int
  month : Nat
  day : Nat
  hour : Nat
  minute : Nat
  second : Nat
  deriving DecidableEq, Repr

/-- Left-pad a digit list with zeros to width `w`
(`chrono`'s `Pad::Zero`). -/
def zeroPad (w : Nat) (cs : List Char) : List Char :=
  List.replicate (w - cs.length) '0' ++ cs

/-- Format a year as `chrono`'s `%Y` does: zero-padded to 4 digits for
years `0..=9999`, otherwise written with an explicit sign. -/
def fmtYear (y : Int) : List Char :=
  if 0 ≤ y ∧ y < 10000 then zeroPad 4 (natToChars y.toNat)
  else if y < 0 then '-' :: zeroPad 4 (natToChars (-y).toNat)
  else '+' :: zeroPad 4 (natToChars y.toNat)

/-- Format a two-digit zero-padded numeric field (`%m %d %H %M %S`). -/
def fmt2 (n : Nat) : List Char :=
  zeroPad 2 (natToChars n)

/-- Format one item of a civil date-time.  `bad` items make the real
`chrono` formatter fail; the theorems below only use formats without
them. -/
def formatItem (dt : CivilDT) : FmtItem → List Char
  | .lit c => [c]
  | .space c => [c]
  | .numYear => fmtYear dt.year
  | .numMonth => fmt2 dt.month
  | .numDay => fmt2 dt.day
  | .numHour => fmt2 dt.hour
  | .numMinute => fmt2 dt.minute
  | .numSecond => fmt2 dt.second
  | .bad => []

/-- Model of `chrono`'s `format` over a list of items. -/
def formatItems (its : List FmtItem) (dt : CivilDT) : List Char :=
  (its.map (formatItem dt)).flatten

/-- `chrono::format::ParseErrorKind` (the variants reachable in this
model). -/
inductive PErrKind where
  | outOfRange
  | impossible
  | notEnough
  | invalid
  | tooShort
  | tooLong
  | badFormat
  deriving DecidableEq, Repr

/-- `chrono::format::Parsed`, restricted to the fields the modelled items
can set.  (`chrono` stores hours as `hour_div_12`/`hour_mod_12`; since
`v = 12 * (v / 12) + v % 12`, storing `v` directly is equivalent.) -/
structure Parsed where
  year : Option Int := none
  month : Option Nat := none
  day : Option Nat := none
  hour : Option Nat := none
  minute : Option Nat := none
  second : Option Nat := none
  deriving DecidableEq, Repr

/-- `Parsed::set_if_consistent`: setting a field twice to different values
is `Impossible`. -/
def setIfConsistent {α : Type} [DecidableEq α] (old : Option α) (v : α) :
    Except PErrKind (Option α) :=
  match old with
  | none => .ok (some v)
  | some w => if w = v then .ok (some w) else .error .impossible

/-- Take up to `w` leading ASCII digits. -/
def takeDigits : Nat → List Char → List Char × List Char
  | 0, cs => ([], cs)
  | _ + 1, [] => ([], [])
  | w + 1, c :: cs =>
    if c.isDigit then
      let (ds, rest) := takeDigits w cs
      (c :: ds, rest)
    else ([], c :: cs)

/-- Model of `chrono`'s `scan::number(s, 1, max)`: empty input is
`TooShort`, a non-digit head is `Invalid`, and the value must fit in a
signed 64-bit integer (`OutOfRange` otherwise).  Consumes greedily, up to
`maxw` digits. -/
def scanNumber (maxw : Nat) (cs : List Char) : Except PErrKind (Nat × List Char) :=
  match cs with
  | [] => .error .tooShort
  | c :: _ =>
    if c.isDigit then
      let (ds, rest) := takeDigits maxw cs
      let v := digitsVal ds
      if v < 2 ^ 63 then .ok (v, rest) else .error .outOfRange
    else .error .invalid

/-- The parsing loop of `chrono::format::parse` over the modelled items:
literals must match exactly (`TooShort` on early end of input, `Invalid`
on mismatch), whitespace items trim input whitespace, numeric items trim
whitespace and scan a bounded number of digits (`%Y` is signed: an
explicit `-`/`+` switches to unbounded width), and each parsed value is
stored with `set_if_consistent`. -/
def parseItems : List FmtItem → List Char → Parsed → Except PErrKind (Parsed × List Char)
  | [], cs, p => .ok (p, cs)
  | .bad :: _, _, _ => .error .badFormat
  | .lit c :: its, cs, p =>
    match cs with
    | [] => .error .tooShort
    | x :: rest => if x = c then parseItems its rest p else .error .invalid
  | .space _ :: its, cs, p => parseItems its (cs.dropWhile Char.isWhitespace) p
  | .numYear :: its, cs, p =>
    let cs' := cs.dropWhile Char.isWhitespace
    match (if cs'.head? = some '-' then
             match scanNumber cs'.tail.length cs'.tail with
             | .error e => .error e
             | .ok (n, r) => .ok (-(n : Int), r)
           else if cs'.head? = some '+' then
             match scanNumber cs'.tail.length cs'.tail with
             | .error e => .error e
             | .ok (n, r) => .ok ((n : Int), r)
           else
             match scanNumber 4 cs' with
             | .error e => .error e
             | .ok (n, r) => .ok ((n : Int), r) :
           Except PErrKind (Int × List Char)) with
    | .error e => .error e
    | .ok (v, rest) =>
      if -(2 ^ 31 : Int) ≤ v ∧ v < (2 ^ 31 : Int) then
        match setIfConsistent p.year v with
        | .error e => .error e
        | .ok f => parseItems its rest { p with year := f }
      else .error .outOfRange
  | .numMonth :: its, cs, p =>
    match scanNumber 2 (cs.dropWhile Char.isWhitespace) with
    | .error e => .error e
    | .ok (v, rest) =>
      match setIfConsistent p.month v with
      | .error e => .error e
      | .ok f => parseItems its rest { p with month := f }
  | .numDay :: its, cs, p =>
    match scanNumber 2 (cs.dropWhile Char.isWhitespace) with
    | .error e => .error e
    | .ok (v, rest) =>
      match setIfConsistent p.day v with
      | .error e => .error e
      | .ok f => parseItems its rest { p with day := f }
  | .numHour :: its, cs, p =>
    match scanNumber 2 (cs.dropWhile Char.isWhitespace) with
    | .error e => .error e
    | .ok (v, rest) =>
      match setIfConsistent p.hour v with
      | .error e => .error e
      | .ok f => parseItems its rest { p with hour := f }
  | .numMinute :: its, cs, p =>
    match scanNumber 2 (cs.dropWhile Char.isWhitespace) with
    | .error e => .error e
    | .ok (v, rest) =>
      match setIfConsistent p.minute v with
      | .error e => .error e
      | .ok f => parseItems its rest { p with minute := f }
  | .numSecond :: its, cs, p =>
    match scanNumber 2 (cs.dropWhile Char.isWhitespace) with
    | .error e => .error e
    | .ok (v, rest) =>
      match setIfConsistent p.second v with
      | .error e => .error e
      | .ok f => parseItems its rest { p with second := f }

/-- `chrono::format::parse` over a list of items: run the item loop and
report `TooLong` if input remains. -/
def chronoParseItems (its : List FmtItem) (cs : List Char) : Except PErrKind Parsed :=
  match parseItems its cs {} with
  | .ok (p, rest) => if rest = [] then .ok p else .error .tooLong
  | .error e => .error e

/-- Proleptic-Gregorian leap-year test. -/
def isLeapYear (y : Int) : Bool :=
  y % 4 == 0 && (y % 100 != 0 || y % 400 == 0)

/-- Days in a month of the proleptic Gregorian calendar. -/
def daysInMonth (y : Int) (m : Nat) : Nat :=
  if m = 2 then (if isLeapYear y then 29 else 28)
  else if m = 4 ∨ m = 6 ∨ m = 9 ∨ m = 11 then 30
  else 31

/-- Validity of a `(year, month, day)` triple as accepted by `chrono`'s
`NaiveDate::from_ymd_opt` (year restricted to `chrono`'s representable
range `-262144..=262143`). -/
def ymdValid (y : Int) (m d : Nat) : Bool :=
  -262144 ≤ y && y ≤ 262143 &&
    1 ≤ m && m ≤ 12 && 1 ≤ d && d ≤ daysInMonth y m

/-- `Parsed::to_naive_date` restricted to the fields the modelled items
set: all of year/month/day must be present (`NotEnough` otherwise) and
form a valid date (`OutOfRange` otherwise). -/
def toNaiveDate (p : Parsed) : Except PErrKind (Int × Nat × Nat) :=
  match p.year, p.month, p.day with
  | some y, some m, some d =>
    if ymdValid y m d then .ok (y, m, d) else .error .outOfRange
  | _, _, _ => .error .notEnough

/-- `Parsed::to_naive_time`: hour and minute are required (`NotEnough`
when missing, `OutOfRange` when outside their ranges); a missing second
defaults to 0, and 60 is accepted as a leap second. -/
def toNaiveTime (p : Parsed) : Except PErrKind (Nat × Nat × Nat) :=
  match p.hour with
  | none => .error .notEnough
  | some h =>
    if 24 ≤ h then .error .outOfRange
    else
      match p.minute with
      | none => .error .notEnough
      | some mi =>
        if 60 ≤ mi then .error .outOfRange
        else
          match p.second with
          | none => .ok (h, mi, 0)
          | some s => if s ≤ 60 then .ok (h, mi, s) else .error .outOfRange

/-- Model of `chrono::NaiveDateTime::parse_from_str`: parse with the
format's items, then build the date and the time from the parsed
fields. -/
def naiveDateTimeParseFromStr (fmt s : List Char) : Except PErrKind CivilDT :=
  match chronoParseItems (strftimeItems fmt) s with
  | .error e => .error e
  | .ok p =>
    match toNaiveDate p with
    | .error e => .error e
    | .ok (y, m, d) =>
      match toNaiveTime p with
      | .error e => .error e
      | .ok (h, mi, sec) => .ok ⟨y, m, d, h, mi, sec⟩

instance {ε α : Type} [DecidableEq ε] [DecidableEq α] : DecidableEq (Except ε α) := fun a b =>
  match a, b with
  | .ok x, .ok y =>
    if h : x = y then .isTrue (congrArg _ h)
    else .isFalse (fun hh => h (Except.ok.inj hh))
  | .error x, .error y =>
    if h : x = y then .isTrue (congrArg _ h)
    else .isFalse (fun hh => h (Except.error.inj hh))
  | .ok _, .error _ => .isFalse (fun hh => Except.noConfusion hh)
  | .error _, .ok _ => .isFalse (fun hh => Except.noConfusion hh)

-- Sanity checks mirroring the `timestamp_scan_suffixes_formats` unit test
-- of the crate (which suffixes are valid for which format).
example : (naiveDateTimeParseFromStr "%Y%m%dT%H%M%S".data "20220201T101010".data).isOk = true := by decide
example : naiveDateTimeParseFromStr "%Y%m%dT%H%M%S".data "20220201T1010".data = .error .tooShort := by decide
example : naiveDateTimeParseFromStr "%Y%m%dT%H%M%S".data "20220201T999999".data = .error .outOfRange := by decide
example : naiveDateTimeParseFromStr "%Y%m%dT%H%M%S".data "2022-02-02".data = .error .invalid := by decide
example : naiveDateTimeParseFromStr "%Y-%m-%d".data "2022-02-01".data = .error .notEnough := by decide
example : naiveDateTimeParseFromStr "%Y-%m-%d".data "abc".data = .error .invalid := by decide
example : naiveDateTimeParseFromStr "%Y-%m-%d".data "2022-99-99".data = .error .outOfRange := by decide
example : naiveDateTimeParseFromStr "%Y-%m-%d".data "2022-05".data = .error .tooShort := by decide
example : naiveDateTimeParseFromStr "%Y-%m-%d".data "2022".data = .error .tooShort := by decide
example : naiveDateTimeParseFromStr "%Y-%m-%d".data "20220202".data = .error .invalid := by decide
example : naiveDateTimeParseFromStr "%Y-%m-%d".data "2022-02-02T112233".data = .error .tooLong := by decide

/-!
### Instants and calendar arithmetic

`chrono` computes `DateTime - Duration` on the timeline and formats the
resulting civil (local) date-time.  An instant is modelled as a count of
seconds (an `Int`) on the local civil timeline; `Duration::days/hours/
weeks` are the corresponding second counts.  The civil-from-days and
days-from-civil conversions are the standard proleptic-Gregorian
algorithms. -/

/-- Days since 1970-01-01 of a civil date (proleptic Gregorian). -/
def daysFromCivil (y : Int) (m d : Nat) : Int :=
  let y' : Int := if m ≤ 2 then y - 1 else y
  let era : Int := Int.ediv y' 400
  let yoe : Int := y' - era * 400
  let mp : Nat := if 2 < m then m - 3 else m + 9
  let doy : Int := ((153 * mp + 2) / 5 + d - 1 : Nat)
  let doe : Int := yoe * 365 + Int.ediv yoe 4 - Int.ediv yoe 100 + doy
  era * 146097 + doe - 719468

/-- Civil date of a day count since 1970-01-01 (proleptic Gregorian). -/
def civilFromDays (z : Int) : Int × Nat × Nat :=
  let z' : Int := z + 719468
  let era : Int := Int.ediv z' 146097
  let doe : Nat := (z' - era * 146097).toNat
  let yoe : Nat := (doe - doe / 1460 + doe / 36524 - doe / 146096) / 365
  let y : Int := yoe + era * 400
  let doy : Nat := doe - (365 * yoe + yoe / 4 - yoe / 100)
  let mp : Nat := (5 * doy + 2) / 153
  let d : Nat := doy - (153 * mp + 2) / 5 + 1
  let m : Nat := if mp < 10 then mp + 3 else mp - 9
  (if m ≤ 2 then y + 1 else y, m, d)

/-- The civil date-time of an instant (seconds on the local timeline). -/
def civilFromInstant (t : Int) : CivilDT :=
  let days := Int.ediv t 86400
  let secs := (Int.emod t 86400).toNat
  let (y, m, d) := civilFromDays days
  ⟨y, m, d, secs / 3600, secs / 60 % 60, secs % 60⟩

/-- The instant (at midnight) of a civil date. -/
def instantOfDate (y : Int) (m d : Nat) : Int :=
  daysFromCivil y m d * 86400

/-- `chrono::Duration::days`. -/
def durationDays (n : Int) : Int := n * 86400

/-- `chrono::Duration::hours`. -/
def durationHours (n : Int) : Int := n * 3600

/-- Format an instant with a format string, modelling
`datetime.format(fmt).to_string()`. -/
def formatInstant (fmt : String) (t : Int) : String :=
  String.mk (formatItems (strftimeItems fmt.data) (civilFromInstant t))

example : civilFromDays (daysFromCivil 2024 1 10) = (2024, 1, 10) := by decide
example : formatInstant "%Y-%m-%d" (instantOfDate 2024 1 3) = "2024-01-03" := by decide
example : formatInstant "%Y%m%dT%H%M%S" (instantOfDate 2022 2 1 + 10 * 3600 + 10 * 60 + 10) = "20220201T101010" := by decide

/-!
### The suffix schemes (`src/suffix.rs`, `src/suffix/time.rs`)
-/

/-- `std::io::ErrorKind` (only the variant this code can construct). -/
inductive IoErrorKind where
  | invalidData
  deriving DecidableEq, Repr

/-- Outcome of running a piece of Rust code that can return a value,
return an error, or panic (e.g. on a failed `assert!`). -/
inductive RustOutcome (ε α : Type) where
  | ok (a : α)
  | err (e : ε)
  | panicked (msg : String)
  deriving DecidableEq

/-- `DateFrom` (`src/suffix/time.rs`): which instant gets stamped into the
suffix. -/
inductive DateFrom where
  | dateYesterday
  | dateHourAgo
  | now
  deriving DecidableEq, Repr

/-- `FileLimit` (`src/suffix/time.rs`); the `Age` duration is a second
count. -/
inductive FileLimit where
  | maxFiles (n : Nat)
  | age (seconds : Int)
  | unlimited
  deriving DecidableEq, Repr

/-- `AppendTimestamp` (`src/suffix/time.rs`). -/
structure AppendTimestamp where
  format : String
  file_limit : FileLimit
  date_from : DateFrom

/-- `AppendTimestamp::default(file_limit)`: format `"%Y%m%dT%H%M%S"`,
stamping the current instant. -/
def AppendTimestamp.default (file_limit : FileLimit) : AppendTimestamp :=
  ⟨"%Y%m%dT%H%M%S", file_limit, .now⟩

/-- The `match self.date_from` back-shift at the start of
`AppendTimestamp::rotate_file` (`src/suffix/time.rs`). -/
def dateFromAdjust (date_from : DateFrom) (nowT : Int) : Int :=
  match date_from with
  | .dateYesterday => nowT - durationDays 1
  | .dateHourAgo => nowT - durationHours 1
  | .now => nowT

/-- `AppendTimestamp::rotate_file` (`src/suffix/time.rs`).  The current
instant (the crate's `now()`, which returns `Local::now()`) is passed in
as the parameter `nowT`.  The function body begins with
`assert!(suffix.is_none())`, which is compiled into release builds as
well, so a call with `suffix = Some(_)` panics; the subsequent
`Err(InvalidData, "Critical error in file-rotate algorithm")` branch is
unreachable. -/
def AppendTimestamp.rotateFile (self : AppendTimestamp) (nowT : Int)
    (newest_suffix : Option TimestampSuffix) (suffix : Option TimestampSuffix) :
    RustOutcome (IoErrorKind × String) TimestampSuffix :=
  if suffix.isSome then .panicked "assertion failed: suffix.is_none()"
  else
    let fmt_now := formatInstant self.format (dateFromAdjust self.date_from nowT)
    let number : Option Nat :=
      match newest_suffix with
      | some ns => if ns.timestamp = fmt_now then some (ns.number.getD 0 + 1) else none
      | none => none
    .ok ⟨fmt_now, number⟩

/-- `AppendTimestamp::parse` (`src/suffix/time.rs`): split at the first
dot; a present dot demands that the part after it parse as a `usize`; the
part before the dot must parse against the format fully or fail only with
`NotEnough`. -/
def AppendTimestamp.parse (self : AppendTimestamp) (suffix : String) :
    Option TimestampSuffix :=
  let (tsChars, afterDot) := splitAtFirstDot suffix.data
  let checked : Option (List Char × Option Nat) :=
    match afterDot with
    | some rest =>
      match parseUsizeChars rest with
      | some n => some (tsChars, some n)
      | none => none
    | none => some (tsChars, none)
  match checked with
  | none => none
  | some (ts, n) =>
    let success : Bool :=
      match naiveDateTimeParseFromStr self.format.data ts with
      | .ok _ => true
      | .error e => e == .notEnough
    if success then some ⟨String.mk ts, n⟩ else none

/-- `AppendTimestamp::too_old` (`src/suffix/time.rs`).  The current
instant (`Local::now()`) is passed in as `nowT`. -/
def AppendTimestamp.tooOld (self : AppendTimestamp) (nowT : Int)
    (suffix : TimestampSuffix) (file_number : Nat) : Bool :=
  match self.file_limit with
  | .maxFiles max_files => max_files ≤ file_number
  | .age age => strLtBool suffix.timestamp (formatInstant self.format (nowT - age))
  | .unlimited => false

/-- `AppendCount` (`src/suffix.rs`). -/
structure AppendCount where
  max_files : Nat

/-- `AppendCount::rotate_file` (`src/suffix.rs`): pure, infallible suffix
computation — `1` for the live file, `n + 1` for suffix `n`. -/
def AppendCount.rotateFile (_self : AppendCount) (_basepath : String)
    (_newest_suffix : Option Nat) (suffix : Option Nat) :
    RustOutcome (IoErrorKind × String) Nat :=
  .ok (match suffix with
       | some n => n + 1
       | none => 1)

/-- `AppendCount::parse` (`src/suffix.rs`). -/
def AppendCount.parse (_self : AppendCount) (suffix : String) : Option Nat :=
  parseUsize suffix

/-- `AppendCount::too_old` (`src/suffix.rs`). -/
def AppendCount.tooOld (self : AppendCount) (_suffix : Nat) (file_number : Nat) : Bool :=
  self.max_files ≤ file_number

/-!
### Directory scanning (`SuffixScheme::scan_suffixes`, `src/suffix.rs`)

The filesystem is abstracted to the list of names of the regular files in
the parent directory of the base path (the source resolves relative paths
against the working directory and reads that directory; only the list of
resulting filenames matters to the algorithm).
-/

/-- `SuffixInfo` (declared in the crate's `lib.rs`): a scanned suffix and
whether the file was compressed. -/
structure SuffixInfo (Repr : Type) where
  suffix : Repr
  compressed : Bool
  deriving DecidableEq, Repr

/-- Modelled from the spec: the ordering of `SuffixInfo` used by the
`BTreeSet` of scan results.  `SuffixInfo`'s `Ord` impl lives in the
crate's `lib.rs`, which is not among the sources here; the spec says scan
results are "ordered by the Representation's ordering", i.e. comparison
looks only at the `suffix` field. -/
def suffixInfoCmp {Repr : Type} (cmp : Repr → Repr → Ordering)
    (a b : SuffixInfo Repr) : Ordering :=
  cmp a.suffix b.suffix

/-- Insertion into a `BTreeSet` modelled as a strictly-sorted list: keep
the list sorted by `cmp`, and keep the existing element when an equal one
is already present (Rust's `BTreeSet::insert` does not replace). -/
def btInsert {α : Type} (cmp : α → α → Ordering) (x : α) : List α → List α
  | [] => [x]
  | y :: ys =>
    match cmp x y with
    | .lt => x :: y :: ys
    | .eq => y :: ys
    | .gt => y :: btInsert cmp x ys

/-- `prepare_filename` (`src/suffix.rs`): strip one trailing `".gz"` and
report whether it was there. -/
def prepareFilename (path : List Char) : List Char × Bool :=
  match listStripSuf path ".gz".data with
  | some x => (x, true)
  | none => (path, false)

/-- `SuffixScheme::scan_suffixes` (`src/suffix.rs`), abstracted over the
scheme's `parse` and the `Repr` comparison, with the directory given as
the list of regular filenames in the base path's parent directory:
keep the files whose name starts with the base filename, strip a trailing
`.gz` (recording it), strip `"{base filename}."`, parse the remainder,
and collect the successes into the sorted set. -/
def scanSuffixes {Repr : Type} (cmp : Repr → Repr → Ordering)
    (parse : String → Option Repr) (filenamePre : String)
    (dirFiles : List String) : List (SuffixInfo Repr) :=
  dirFiles.foldl
    (fun suffixes filename =>
      if filenamePre.data.isPrefixOf filename.data then
        let (fname, compressed) := prepareFilename filename.data
        match listStripPre (filenamePre.data ++ ['.']) fname with
        | some suffix_str =>
          match parse (String.mk suffix_str) with
          | some suffix => btInsert (suffixInfoCmp cmp) ⟨suffix, compressed⟩ suffixes
          | none => suffixes
        | none => suffixes
      else suffixes)
    []

/-- The `Ord` of `usize`, as used by `AppendCount`'s `Repr`. -/
def natCmp (a b : Nat) : Ordering := compare a b

example :
    scanSuffixes natCmp (AppendCount.parse ⟨3⟩) "file"
      ["file", "file.1", "file.2.gz", "otherfile.1"] =
    [⟨1, false⟩, ⟨2, true⟩] := by decide

/-- Claim C4's description of the collision number: `newest_suffix.number`
(defaulting to 0) plus 1 when the newest suffix's timestamp equals the
freshly formatted one, absent otherwise. -/
def specCollisionNumber (newest_suffix : Option TimestampSuffix)
    (fmt_now : String) : Option Nat :=
  match newest_suffix with
  | some ns => if ns.timestamp = fmt_now then some (ns.number.getD 0 + 1) else none
  | none => none

/-- The entry that `scan_suffixes` derives from one directory filename:
the name must start with the base filename; a trailing `".gz"` is
stripped and recorded; then `"{base filename}."` is stripped and the
remainder parsed. -/
def entryOf {Repr : Type} (parse : String → Option Repr) (filenamePre : String)
    (filename : String) : Option (SuffixInfo Repr) :=
  if filenamePre.data.isPrefixOf filename.data then
    let (fname, compressed) := prepareFilename filename.data
    match listStripPre (filenamePre.data ++ ['.']) fname with
    | some suffix_str =>
      match parse (String.mk suffix_str) with
      | some suffix => some ⟨suffix, compressed⟩
      | none => none
    | none => none
  else none

/-- The strftime items for which the `chrono` model is exact and which the
round-trip theorem quantifies over: the numeric specifiers, and literal
characters that are neither `'.'` (the crate's documented restriction on
formats) nor whitespace. -/
def tameItemB : FmtItem → Bool
  | .lit c => c != '.' && !c.isWhitespace
  | .space _ => false
  | .bad => false
  | _ => true

/-- A civil date-time as produced by `chrono` for a real local instant
(all fields in range; leap seconds excluded), with the year restricted to
`0..=9999` so that `%Y` formats to exactly four digits. -/
def civilValidB (dt : CivilDT) : Bool :=
  0 ≤ dt.year && dt.year ≤ 9999 &&
    1 ≤ dt.month && dt.month ≤ 12 &&
    1 ≤ dt.day && dt.day ≤ daysInMonth dt.year dt.month &&
    dt.hour ≤ 23 && dt.minute ≤ 59 && dt.second ≤ 59

/-- Every field the parser has filled agrees with the given civil
date-time. -/
def agrees (p : Parsed) (dt : CivilDT) : Prop :=
  (∀ y, p.year = some y → y = dt.year) ∧
  (∀ v, p.month = some v → v = dt.month) ∧
  (∀ v, p.day = some v → v = dt.day) ∧
  (∀ v, p.hour = some v → v = dt.hour) ∧
  (∀ v, p.minute = some v → v = dt.minute) ∧
  (∀ v, p.second = some v → v = dt.second)

/-!
## Comparator lemmas
-/

theorem charCmp_eq_lt {a b : Char} : charCmp a b = .lt ↔ a < b := by
  unfold charCmp
  split_ifs with h h2
  · simp [h]
  · subst h2
    simp
  · exact iff_of_false not_false h

theorem charCmp_eq_eq {a b : Char} : charCmp a b = .eq ↔ a = b := by
  unfold charCmp
  split_ifs with h h2
  · exact iff_of_false not_false (ne_of_lt h)
  · simp [h2]
  · exact iff_of_false not_false h2

theorem listCharCmp_eq_eq : ∀ a b : List Char, listCharCmp a b = .eq ↔ a = b
  | [], [] => by simp [listCharCmp]
  | [], _ :: _ => by simp [listCharCmp]
  | _ :: _, [] => by simp [listCharCmp]
  | a :: as', b :: bs' => by
    simp only [listCharCmp]
    rcases h : charCmp a b with _ | _ | _
    · have hne : a ≠ b := ne_of_lt (charCmp_eq_lt.mp h)
      constructor
      · intro hh; exact Ordering.noConfusion hh
      · intro hh
        exact absurd (by injection hh) hne
    · have he := charCmp_eq_eq.mp h
      subst he
      rw [listCharCmp_eq_eq as' bs']
      simp
    · have hne : a ≠ b := by
        intro he
        rw [charCmp_eq_eq.mpr he] at h
        exact Ordering.noConfusion h
      constructor
      · intro hh; exact Ordering.noConfusion hh
      · intro hh
        exact absurd (by injection hh) hne

theorem listCharCmp_eq_lt : ∀ a b : List Char, listCharCmp a b = .lt ↔ List.Lex (· < ·) a b
  | [], [] => by
    simp only [listCharCmp]
    constructor
    · intro h; exact Ordering.noConfusion h
    · intro h; cases h
  | [], b :: bs' => by
    simp only [listCharCmp]
    exact ⟨fun _ => List.Lex.nil, fun _ => trivial⟩
  | a :: as', [] => by
    simp only [listCharCmp]
    constructor
    · intro h; exact Ordering.noConfusion h
    · intro h; cases h
  | a :: as', b :: bs' => by
    simp only [listCharCmp]
    rcases h : charCmp a b with _ | _ | _
    · simp only [charCmp_eq_lt] at h
      exact ⟨fun _ => List.Lex.rel h, fun _ => rfl⟩
    · have he := charCmp_eq_eq.mp h
      subst he
      constructor
      · intro hlt
        exact List.Lex.cons ((listCharCmp_eq_lt as' bs').mp hlt)
      · intro hlex
        cases hlex with
        | cons htl => exact (listCharCmp_eq_lt as' bs').mpr htl
        | rel hr => exact absurd rfl (ne_of_lt hr)
    · have hnlt : ¬a < b := by
        intro hlt
        rw [charCmp_eq_lt.mpr hlt] at h
        exact Ordering.noConfusion h
      have hne : ¬a = b := by
        intro he
        rw [charCmp_eq_eq.mpr he] at h
        exact Ordering.noConfusion h
      constructor
      · intro hh; exact Ordering.noConfusion hh
      · intro hlex
        cases hlex with
        | cons _ => exact absurd rfl hne
        | rel hr => exact absurd hr hnlt

theorem strCmp_eq_eq {a b : String} : strCmp a b = .eq ↔ a = b := by
  unfold strCmp
  rw [listCharCmp_eq_eq]
  constructor
  · intro h
    cases a; cases b
    exact congrArg String.mk h
  · intro h; rw [h]

theorem listCharCmp_self_eq (a : List Char) : listCharCmp a a = .eq :=
  (listCharCmp_eq_eq a a).mpr rfl

theorem not_lex_self (a : List Char) : ¬List.Lex (· < ·) a a := by
  intro hlex
  have h1 := (listCharCmp_eq_lt a a).mpr hlex
  rw [listCharCmp_self_eq a] at h1
  exact Ordering.noConfusion h1

theorem strCmp_eq_lt {a b : String} :
    strCmp a b = .lt ↔ List.Lex (· < ·) a.data b.data :=
  listCharCmp_eq_lt a.data b.data

theorem optNatCmp_eq_lt {x y : Option Nat} :
    optNatCmp x y = .lt ↔
      (x = none ∧ ∃ k, y = some k) ∨ (∃ a b, x = some a ∧ y = some b ∧ a < b) := by
  rcases x with _ | a <;> rcases y with _ | b <;> simp [optNatCmp]
  exact Nat.compare_eq_lt

/-- C3: `TimestampSuffix` ordering.  `a` sorts before (is "smaller" than)
`b` iff `a.timestamp` is lexically greater than `b.timestamp`, or the
timestamps are equal and `a.number` is greater than `b.number`, where an
absent number is treated as smaller than any present number (hence older:
it sorts after the numbered suffixes of the same timestamp). -/
theorem tsCmp_lt_iff (a b : TimestampSuffix) :
    tsCmp a b = .lt ↔
      (List.Lex (· < ·) b.timestamp.data a.timestamp.data ∨
        (a.timestamp = b.timestamp ∧
          ((b.number = none ∧ ∃ k, a.number = some k) ∨
            (∃ na nb, a.number = some na ∧ b.number = some nb ∧ nb < na)))) := by
  unfold tsCmp
  rcases h : strCmp b.timestamp a.timestamp with _ | _ | _
  · simp only [strCmp_eq_lt] at h
    simp [h]
  · have he := strCmp_eq_eq.mp h
    rw [he] at *
    rw [optNatCmp_eq_lt]
    simp only [not_lex_self, false_or, true_and]
    constructor
    · rintro (⟨h1, k, h2⟩ | ⟨x, y, h1, h2, h3⟩)
      · exact Or.inl ⟨h1, k, h2⟩
      · exact Or.inr ⟨y, x, h2, h1, h3⟩
    · rintro (⟨h1, k, h2⟩ | ⟨na, nb, h1, h2, h3⟩)
      · exact Or.inl ⟨h1, k, h2⟩
      · exact Or.inr ⟨nb, na, h2, h1, h3⟩
  · have hnlex : ¬List.Lex (· < ·) b.timestamp.data a.timestamp.data := by
      intro hlex
      rw [strCmp_eq_lt.mpr hlex] at h
      exact Ordering.noConfusion h
    have hne : ¬a.timestamp = b.timestamp := by
      intro he
      rw [strCmp_eq_eq.mpr he.symm] at h
      exact Ordering.noConfusion h
    simp [hnlex, hne]

/-!
## Claims about `rotate_file` and `too_old`
-/

/-- C7: `AppendCount::rotate_file` is a pure computation that never fails:
for every basepath and newest-suffix hint it returns `Ok(1)` when
displacing the live file (`suffix = None`) and `Ok(n + 1)` when displacing
the rotated file at suffix `n`. -/
theorem appendCount_rotateFile_spec (self : AppendCount) (basepath : String)
    (newest_suffix : Option Nat) :
    self.rotateFile basepath newest_suffix none = .ok 1 ∧
    ∀ n : Nat, self.rotateFile basepath newest_suffix (some n) = .ok (n + 1) :=
  ⟨rfl, fun _ => rfl⟩

/-- C8: under a maximum-file-count policy `too_old` holds exactly when the
zero-based recency rank reaches `max_files` — for `AppendCount` and for
`AppendTimestamp` with `FileLimit::MaxFiles` alike, independent of the
suffix value. -/
theorem tooOld_maxFiles_iff (m n : Nat) (s : Nat) (fmt : String) (df : DateFrom)
    (nowT : Int) (ts : TimestampSuffix) :
    ((AppendCount.mk m).tooOld s n = true ↔ m ≤ n) ∧
    ((AppendTimestamp.mk fmt (.maxFiles m) df).tooOld nowT ts n = true ↔ m ≤ n) := by
  refine ⟨?_, ?_⟩ <;> simp [AppendCount.tooOld, AppendTimestamp.tooOld]

/-- C5: `AppendTimestamp::too_old` under `FileLimit::Age(d)` is true iff
the suffix's timestamp string sorts lexically strictly before the
formatted string of "now minus d", independent of the recency rank; under
`Unlimited` it is always false.  With format `"%Y-%m-%d"`, age 7 days and
current date 2024-01-10, suffix `"2024-01-01"` is too old and
`"2024-01-05"` is not. -/
theorem appendTimestamp_tooOld_age_spec (fmt : String) (df df' : DateFrom)
    (d nowT : Int) (s : TimestampSuffix) (n n' : Nat) :
    ((AppendTimestamp.mk fmt (.age d) df).tooOld nowT s n = true ↔
      List.Lex (· < ·) s.timestamp.data (formatInstant fmt (nowT - d)).data) ∧
    ((AppendTimestamp.mk fmt (.age d) df).tooOld nowT s n =
      (AppendTimestamp.mk fmt (.age d) df).tooOld nowT s n') ∧
    ((AppendTimestamp.mk fmt .unlimited df').tooOld nowT s n = false) ∧
    ((AppendTimestamp.mk "%Y-%m-%d" (.age (durationDays 7)) df).tooOld
      (instantOfDate 2024 1 10) ⟨"2024-01-01", none⟩ n = true) ∧
    ((AppendTimestamp.mk "%Y-%m-%d" (.age (durationDays 7)) df).tooOld
      (instantOfDate 2024 1 10) ⟨"2024-01-05", none⟩ n = false) := by
  refine ⟨?_, rfl, rfl, ?_, ?_⟩
  · show strLtBool s.timestamp (formatInstant fmt (nowT - d)) = true ↔ _
    unfold strLtBool
    rw [← strCmp_eq_lt]
    cases h : strCmp s.timestamp (formatInstant fmt (nowT - d)) <;> simp [h] <;> decide
  · show strLtBool "2024-01-01"
      (formatInstant "%Y-%m-%d" (instantOfDate 2024 1 10 - durationDays 7)) = true
    decide
  · show strLtBool "2024-01-05"
      (formatInstant "%Y-%m-%d" (instantOfDate 2024 1 10 - durationDays 7)) = false
    decide

/-- C1 (code bug): calling `AppendTimestamp::rotate_file` with
`suffix = Some(_)` panics on the leading `assert!` in every build profile
— it never returns the `InvalidData` error value that the dead branch
after the assert (and the spec) describe. -/
theorem appendTimestamp_rotateFile_some_panics :
    ((AppendTimestamp.default (.maxFiles 4)).rotateFile 0 none
        (some ⟨"20220101T000000", none⟩) =
      .panicked "assertion failed: suffix.is_none()") ∧
    ∀ (self : AppendTimestamp) (nowT : Int) (ns : Option TimestampSuffix)
      (s : TimestampSuffix) (e : IoErrorKind × String),
      self.rotateFile nowT ns (some s) ≠ .err e := by
  constructor
  · rfl
  · intro self nowT ns s e h
    simp [AppendTimestamp.rotateFile] at h

/-- C4: with `suffix = None`, `rotate_file` returns the freshly formatted
(possibly back-shifted) timestamp carrying the collision number described
by `specCollisionNumber`; consequently two rotations of the live file
within the same formatted tick produce `{t, none}` and then `{t, 1}`. -/
theorem appendTimestamp_rotateFile_collision (self : AppendTimestamp)
    (nowT nowT' : Int) (ns : Option TimestampSuffix) :
    (self.rotateFile nowT ns none =
      .ok ⟨formatInstant self.format (dateFromAdjust self.date_from nowT),
           specCollisionNumber ns
             (formatInstant self.format (dateFromAdjust self.date_from nowT))⟩) ∧
    (formatInstant self.format (dateFromAdjust self.date_from nowT') =
        formatInstant self.format (dateFromAdjust self.date_from nowT) →
      self.rotateFile nowT none none =
        .ok ⟨formatInstant self.format (dateFromAdjust self.date_from nowT), none⟩ ∧
      self.rotateFile nowT'
          (some ⟨formatInstant self.format (dateFromAdjust self.date_from nowT), none⟩)
          none =
        .ok ⟨formatInstant self.format (dateFromAdjust self.date_from nowT), some 1⟩) := by
  constructor
  · rfl
  · intro hsame
    constructor
    · rfl
    · simp [AppendTimestamp.rotateFile, hsame]

/-- Witness for C4 at a concrete tick: rotating the live file twice at the
instant 2022-02-01 00:00:00 yields `{20220201T000000, none}` and then
`{20220201T000000, 1}`. -/
theorem appendTimestamp_rotateFile_collision_witness :
    (AppendTimestamp.default .unlimited).rotateFile (instantOfDate 2022 2 1)
        none none = .ok ⟨"20220201T000000", none⟩ ∧
    (AppendTimestamp.default .unlimited).rotateFile (instantOfDate 2022 2 1)
        (some ⟨"20220201T000000", none⟩) none =
      .ok ⟨"20220201T000000", some 1⟩ := by
  have h := (appendTimestamp_rotateFile_collision (AppendTimestamp.default .unlimited)
      (instantOfDate 2022 2 1) (instantOfDate 2022 2 1) none).2 rfl
  have ht : formatInstant (AppendTimestamp.default .unlimited).format
      (dateFromAdjust (AppendTimestamp.default .unlimited).date_from
        (instantOfDate 2022 2 1)) = "20220201T000000" := by decide
  rw [ht] at h
  exact h

/-- Witness for C1's universally quantified part at a concrete input: the
call with `suffix = Some(_)` does not return the `InvalidData` error the
dead branch would produce. -/
theorem appendTimestamp_rotateFile_some_panics_witness :
    (AppendTimestamp.default (.maxFiles 4)).rotateFile 0 none
        (some ⟨"20220101T000000", none⟩) ≠
      .err (.invalidData, "Critical error in file-rotate algorithm") :=
  appendTimestamp_rotateFile_some_panics.2 (AppendTimestamp.default (.maxFiles 4)) 0
    none ⟨"20220101T000000", none⟩ (.invalidData, "Critical error in file-rotate algorithm")

/-!
## Claims about parsing and the compression marker
-/

/-- C10: `".gz"` is the only compression marker: `prepare_filename`
reports `compressed = true` iff the filename ends in `".gz"`, in which
case exactly that one trailing `".gz"` is removed; any other name is
returned unchanged with `compressed = false`. -/
theorem prepareFilename_gz_spec (cs : List Char) :
    ((prepareFilename cs).2 = true ↔ ".gz".data <:+ cs) ∧
    (∀ pre, cs = pre ++ ".gz".data → prepareFilename cs = (pre, true)) ∧
    (¬ ".gz".data <:+ cs → prepareFilename cs = (cs, false)) := by
  unfold prepareFilename listStripSuf
  by_cases h : ".gz".data <:+ cs
  · have hb : ".gz".data.isSuffixOf cs = true := List.isSuffixOf_iff_suffix.mpr h
    rw [hb]
    refine ⟨by simp [h], ?_, fun hn => absurd h hn⟩
    intro pre hpre
    subst hpre
    have hlen : (pre ++ ".gz".data).length - ".gz".data.length = pre.length := by
      simp
    rw [hlen]
    rw [List.take_left' rfl]
    rfl
  · have hb : ".gz".data.isSuffixOf cs = false := by
      rw [← Bool.not_eq_true]
      intro hcon
      exact h (List.isSuffixOf_iff_suffix.mp hcon)
    rw [hb]
    refine ⟨by simp [h], ?_, fun _ => rfl⟩
    intro pre hpre
    exact absurd (hpre ▸ List.suffix_append pre ".gz".data) h

/-- Witness for C10 at concrete filenames: `file.2.gz` is stripped and
marked compressed, `file.1` is untouched. -/
theorem prepareFilename_gz_spec_witness :
    prepareFilename "file.2.gz".data = ("file.2".data, true) ∧
    prepareFilename "file.1".data = ("file.1".data, false) := by
  constructor
  · exact (prepareFilename_gz_spec "file.2.gz".data).2.1 "file.2".data (by decide)
  · exact (prepareFilename_gz_spec "file.1".data).2.2 (by decide)

/-- C6: `AppendTimestamp::parse` splits at the first dot; with a dot, the
part after it must parse as a non-negative integer (else the whole parse
is `none`); the timestamp candidate is accepted iff it fully matches the
format or fails only with `NotEnough`.  Under the default format
`"%Y%m%dT%H%M%S"` it accepts `"20220201T101010"` and rejects
`"2022-02-02"` and `"20220201T999999"`. -/
theorem appendTimestamp_parse_spec (self : AppendTimestamp) (s : String) :
    (∀ ts rest, splitAtFirstDot s.data = (ts, some rest) →
      parseUsizeChars rest = none → self.parse s = none) ∧
    (∀ ts rest n, splitAtFirstDot s.data = (ts, some rest) →
      parseUsizeChars rest = some n →
      self.parse s =
        (if (naiveDateTimeParseFromStr self.format.data ts).isOk = true ∨
            naiveDateTimeParseFromStr self.format.data ts = .error .notEnough
         then some ⟨String.mk ts, some n⟩ else none)) ∧
    (∀ ts, splitAtFirstDot s.data = (ts, none) →
      self.parse s =
        (if (naiveDateTimeParseFromStr self.format.data ts).isOk = true ∨
            naiveDateTimeParseFromStr self.format.data ts = .error .notEnough
         then some ⟨String.mk ts, none⟩ else none)) ∧
    ((AppendTimestamp.default .unlimited).parse "20220201T101010" =
      some ⟨"20220201T101010", none⟩) ∧
    ((AppendTimestamp.default .unlimited).parse "2022-02-02" = none) ∧
    ((AppendTimestamp.default .unlimited).parse "20220201T999999" = none) := by
  refine ⟨?_, ?_, ?_, by decide, by decide, by decide⟩
  · intro ts rest hsplit hnum
    simp [AppendTimestamp.parse, hsplit, hnum]
  · intro ts rest n hsplit hnum
    simp only [AppendTimestamp.parse, hsplit, hnum]
    rcases hndt : naiveDateTimeParseFromStr self.format.data ts with e | dt
    · cases e <;> simp [hndt, Except.isOk, Except.toBool]
    · simp [hndt, Except.isOk, Except.toBool]
  · intro ts hsplit
    simp only [AppendTimestamp.parse, hsplit]
    rcases hndt : naiveDateTimeParseFromStr self.format.data ts with e | dt
    · cases e <;> simp [hndt, Except.isOk, Except.toBool]
    · simp [hndt, Except.isOk, Except.toBool]

/-- Witness for C6 at concrete inputs: a dot with non-numeric tail kills
the parse, and a dot with numeric tail `7` yields number 7. -/
theorem appendTimestamp_parse_spec_witness :
    (AppendTimestamp.default .unlimited).parse "2021.abc" = none ∧
    (AppendTimestamp.default .unlimited).parse "20220201T101010.7" =
      some ⟨"20220201T101010", some 7⟩ := by
  constructor
  · exact (appendTimestamp_parse_spec (AppendTimestamp.default .unlimited)
      "2021.abc").1 "2021".data "abc".data (by decide) (by decide)
  · have h := (appendTimestamp_parse_spec (AppendTimestamp.default .unlimited)
      "20220201T101010.7").2.1 "20220201T101010".data "7".data 7 (by decide) (by decide)
    rw [if_pos (by decide)] at h
    exact h

/-!
## Claim C9: the directory scan

`entryOf` is the per-filename step of `scan_suffixes`: the scan entry a
single directory filename contributes for a given base filename, if any.
The lemmas below show the scan result is exactly the set of per-filename
matches, sorted by the comparator.
-/

theorem mem_of_mem_btInsert {α : Type} {cmp : α → α → Ordering} {a x : α}
    {l : List α} (h : x ∈ btInsert cmp a l) : x = a ∨ x ∈ l := by
  induction l with
  | nil => simpa [btInsert] using h
  | cons y ys ih =>
    unfold btInsert at h
    rcases hc : cmp a y with _ | _ | _ <;> rw [hc] at h
    · rw [List.mem_cons] at h
      rcases h with h | h
      · exact .inl h
      · exact .inr h
    · exact .inr h
    · rw [List.mem_cons] at h
      rcases h with h | h
      · exact .inr (h ▸ List.mem_cons_self y ys)
      · rcases ih h with h1 | h2
        · exact .inl h1
        · exact .inr (List.mem_cons_of_mem y h2)

theorem mem_btInsert_of_mem {α : Type} {cmp : α → α → Ordering} {a x : α}
    {l : List α} (h : x ∈ l) : x ∈ btInsert cmp a l := by
  induction l with
  | nil => cases h
  | cons y ys ih =>
    unfold btInsert
    rcases hc : cmp a y with _ | _ | _
    · exact List.mem_cons_of_mem a h
    · exact h
    · rw [List.mem_cons] at h
      rcases h with h | h
      · exact h ▸ List.mem_cons_self y _
      · exact List.mem_cons_of_mem y (ih h)

theorem btInsert_self_or {α : Type} (cmp : α → α → Ordering) (a : α) (l : List α) :
    a ∈ btInsert cmp a l ∨ ∃ z ∈ l, cmp a z = .eq ∧ btInsert cmp a l = l := by
  induction l with
  | nil => exact .inl (by simp [btInsert])
  | cons y ys ih =>
    unfold btInsert
    rcases hc : cmp a y with _ | _ | _
    · exact .inl (List.mem_cons_self a _)
    · exact .inr ⟨y, List.mem_cons_self y ys, hc, rfl⟩
    · rcases ih with h | ⟨z, hz, he, heq⟩
      · exact .inl (List.mem_cons_of_mem y h)
      · exact .inr ⟨z, List.mem_cons_of_mem y hz, he, by rw [heq]⟩

theorem pairwise_btInsert {α : Type} {cmp : α → α → Ordering}
    (hflip : ∀ u v, cmp u v = .gt ↔ cmp v u = .lt)
    (htrans : ∀ u v w, cmp u v = .lt → cmp v w = .lt → cmp u w = .lt)
    (a : α) {l : List α} (hl : l.Pairwise (fun u v => cmp u v = .lt)) :
    (btInsert cmp a l).Pairwise (fun u v => cmp u v = .lt) := by
  induction l with
  | nil => simp [btInsert]
  | cons y ys ih =>
    rw [List.pairwise_cons] at hl
    obtain ⟨hy, hys⟩ := hl
    unfold btInsert
    rcases hc : cmp a y with _ | _ | _
    · rw [List.pairwise_cons]
      refine ⟨?_, List.pairwise_cons.mpr ⟨hy, hys⟩⟩
      intro z hz
      rw [List.mem_cons] at hz
      rcases hz with hz | hz
      · exact hz ▸ hc
      · exact htrans a y z hc (hy z hz)
    · exact List.pairwise_cons.mpr ⟨hy, hys⟩
    · rw [List.pairwise_cons]
      refine ⟨?_, ih hys⟩
      intro z hz
      rcases mem_of_mem_btInsert hz with hz | hz
      · exact hz ▸ (hflip a y).mp hc
      · exact hy z hz

theorem mem_of_mem_foldl_btInsert {α : Type} {cmp : α → α → Ordering} :
    ∀ (fm acc : List α) (x : α),
      x ∈ fm.foldl (fun acc i => btInsert cmp i acc) acc → x ∈ acc ∨ x ∈ fm := by
  intro fm
  induction fm with
  | nil => exact fun acc x h => .inl h
  | cons a rs ih =>
    intro acc x h
    simp only [List.foldl_cons] at h
    rcases ih (btInsert cmp a acc) x h with h1 | h2
    · rcases mem_of_mem_btInsert h1 with h3 | h4
      · exact .inr (h3 ▸ List.mem_cons_self a rs)
      · exact .inl h4
    · exact .inr (List.mem_cons_of_mem a h2)

theorem mem_foldl_btInsert_of_mem_acc {α : Type} {cmp : α → α → Ordering} :
    ∀ (fm acc : List α) (x : α),
      x ∈ acc → x ∈ fm.foldl (fun acc i => btInsert cmp i acc) acc := by
  intro fm
  induction fm with
  | nil => exact fun acc x h => h
  | cons a rs ih =>
    intro acc x h
    simp only [List.foldl_cons]
    exact ih (btInsert cmp a acc) x (mem_btInsert_of_mem h)

theorem mem_foldl_btInsert_of_mem {α : Type} {cmp : α → α → Ordering} :
    ∀ (fm acc : List α),
      (∀ i1, (i1 ∈ acc ∨ i1 ∈ fm) → ∀ i2, (i2 ∈ acc ∨ i2 ∈ fm) →
        cmp i1 i2 = .eq → i1 = i2) →
      ∀ x ∈ fm, x ∈ fm.foldl (fun acc i => btInsert cmp i acc) acc := by
  intro fm
  induction fm with
  | nil => exact fun acc _ x hx => absurd hx (List.not_mem_nil x)
  | cons a rs ih =>
    intro acc hdist x hx
    simp only [List.foldl_cons]
    rw [List.mem_cons] at hx
    rcases hx with hx | hx
    · subst hx
      rcases btInsert_self_or cmp x acc with h | ⟨z, hz, he, heq⟩
      · exact mem_foldl_btInsert_of_mem_acc rs (btInsert cmp x acc) x h
      · have hxz : x = z :=
          hdist x (Or.inr (List.mem_cons_self x rs)) z (Or.inl hz) he
        rw [heq]
        exact mem_foldl_btInsert_of_mem_acc rs acc x (hxz ▸ hz)
    · refine ih (btInsert cmp a acc) ?_ x hx
      intro i1 h1 i2 h2 he
      refine hdist i1 ?_ i2 ?_ he
      · rcases h1 with h1 | h1
        · rcases mem_of_mem_btInsert h1 with h3 | h3
          · exact .inr (h3 ▸ List.mem_cons_self a rs)
          · exact .inl h3
        · exact .inr (List.mem_cons_of_mem a h1)
      · rcases h2 with h2 | h2
        · rcases mem_of_mem_btInsert h2 with h3 | h3
          · exact .inr (h3 ▸ List.mem_cons_self a rs)
          · exact .inl h3
        · exact .inr (List.mem_cons_of_mem a h2)

theorem pairwise_foldl_btInsert {α : Type} {cmp : α → α → Ordering}
    (hflip : ∀ u v, cmp u v = .gt ↔ cmp v u = .lt)
    (htrans : ∀ u v w, cmp u v = .lt → cmp v w = .lt → cmp u w = .lt) :
    ∀ (fm acc : List α), acc.Pairwise (fun u v => cmp u v = .lt) →
      (fm.foldl (fun acc i => btInsert cmp i acc) acc).Pairwise
        (fun u v => cmp u v = .lt) := by
  intro fm
  induction fm with
  | nil => exact fun acc h => h
  | cons a rs ih =>
    intro acc h
    simp only [List.foldl_cons]
    exact ih (btInsert cmp a acc) (pairwise_btInsert hflip htrans a h)

theorem scan_step_eq {Repr : Type} (cmp : Repr → Repr → Ordering)
    (parse : String → Option Repr) (filenamePre : String)
    (acc : List (SuffixInfo Repr)) (filename : String) :
    (if filenamePre.data.isPrefixOf filename.data then
       let (fname, compressed) := prepareFilename filename.data
       match listStripPre (filenamePre.data ++ ['.']) fname with
       | some suffix_str =>
         match parse (String.mk suffix_str) with
         | some suffix => btInsert (suffixInfoCmp cmp) ⟨suffix, compressed⟩ acc
         | none => acc
       | none => acc
     else acc) =
      (match entryOf parse filenamePre filename with
       | some i => btInsert (suffixInfoCmp cmp) i acc
       | none => acc) := by
  unfold entryOf
  rcases hpf : prepareFilename filename.data with ⟨fn, comp⟩
  by_cases hp : filenamePre.data.isPrefixOf filename.data
  · simp only [hp, if_true, hpf]
    rcases hs : listStripPre (filenamePre.data ++ ['.']) fn with _ | suffix_str
    · rfl
    · rcases hq : parse (String.mk suffix_str) with _ | suffix <;> simp [hq]
  · simp [hp]

theorem scanSuffixes_eq_fold {Repr : Type} (cmp : Repr → Repr → Ordering)
    (parse : String → Option Repr) (filenamePre : String) (dirFiles : List String) :
    scanSuffixes cmp parse filenamePre dirFiles =
      (dirFiles.filterMap (entryOf parse filenamePre)).foldl
        (fun acc i => btInsert (suffixInfoCmp cmp) i acc) [] := by
  unfold scanSuffixes
  generalize ([] : List (SuffixInfo Repr)) = acc
  induction dirFiles generalizing acc with
  | nil => rfl
  | cons f fs ih =>
    simp only [List.foldl_cons, List.filterMap_cons]
    rw [scan_step_eq cmp parse filenamePre acc f]
    rcases he : entryOf parse filenamePre f with _ | i
    · exact ih acc
    · simp only [List.foldl_cons]
      exact ih (btInsert (suffixInfoCmp cmp) i acc)

theorem natCmp_flip : ∀ u v : Nat, natCmp u v = .gt ↔ natCmp v u = .lt := by
  intro u v
  unfold natCmp
  rw [Nat.compare_eq_gt, Nat.compare_eq_lt]

theorem natCmp_trans : ∀ u v w : Nat,
    natCmp u v = .lt → natCmp v w = .lt → natCmp u w = .lt := by
  intro u v w h1 h2
  unfold natCmp at h1 h2 ⊢
  rw [Nat.compare_eq_lt] at h1 h2 ⊢
  exact lt_trans h1 h2

/-- C9: `scan_suffixes` returns exactly the per-filename matches — the
directory entries of the form `"{base filename}.{remainder}"` (after
stripping a trailing `".gz"` and recording it) whose remainder the
scheme's `parse` accepts, as captured by `entryOf` — in a set strictly
sorted by the `Repr` comparison (most recent first); non-parsing entries
are silently skipped.  The comparator must be an order (the `Ord`
contract of `Representation`), and matching filenames must determine
distinct suffixes (entries with equal suffixes collapse in the
`BTreeSet`).  Concretely, for base `file` over
`[file, file.1, file.2.gz, otherfile.1]` with `AppendCount`, the scan
yields exactly `[{1, plain}, {2, compressed}]` in that order. -/
theorem scanSuffixes_spec {Repr : Type} (cmp : Repr → Repr → Ordering)
    (parse : String → Option Repr) (filenamePre : String) (dirFiles : List String)
    (hflip : ∀ u v : Repr, cmp u v = .gt ↔ cmp v u = .lt)
    (htrans : ∀ u v w : Repr, cmp u v = .lt → cmp v w = .lt → cmp u w = .lt)
    (hdist : ∀ i1 ∈ dirFiles.filterMap (entryOf parse filenamePre),
      ∀ i2 ∈ dirFiles.filterMap (entryOf parse filenamePre),
      cmp i1.suffix i2.suffix = .eq → i1 = i2) :
    (∀ info, info ∈ scanSuffixes cmp parse filenamePre dirFiles ↔
      ∃ f ∈ dirFiles, entryOf parse filenamePre f = some info) ∧
    (scanSuffixes cmp parse filenamePre dirFiles).Pairwise
      (fun a b => cmp a.suffix b.suffix = .lt) ∧
    scanSuffixes natCmp (AppendCount.parse ⟨3⟩) "file"
      ["file", "file.1", "file.2.gz", "otherfile.1"] = [⟨1, false⟩, ⟨2, true⟩] := by
  have hflip' : ∀ u v : SuffixInfo Repr,
      suffixInfoCmp cmp u v = .gt ↔ suffixInfoCmp cmp v u = .lt :=
    fun u v => hflip u.suffix v.suffix
  have htrans' : ∀ u v w : SuffixInfo Repr, suffixInfoCmp cmp u v = .lt →
      suffixInfoCmp cmp v w = .lt → suffixInfoCmp cmp u w = .lt :=
    fun u v w => htrans u.suffix v.suffix w.suffix
  refine ⟨?_, ?_, by decide⟩
  · intro info
    rw [scanSuffixes_eq_fold]
    constructor
    · intro h
      rcases mem_of_mem_foldl_btInsert _ _ info h with h1 | h2
      · exact absurd h1 (List.not_mem_nil info)
      · exact List.mem_filterMap.mp h2
    · rintro ⟨f, hf, he⟩
      refine mem_foldl_btInsert_of_mem _ [] ?_ info (List.mem_filterMap.mpr ⟨f, hf, he⟩)
      intro i1 h1 i2 h2 heq
      rcases h1 with h1 | h1
      · exact absurd h1 (List.not_mem_nil i1)
      rcases h2 with h2 | h2
      · exact absurd h2 (List.not_mem_nil i2)
      exact hdist i1 h1 i2 h2 heq
  · rw [scanSuffixes_eq_fold]
    exact pairwise_foldl_btInsert hflip' htrans' _ [] List.Pairwise.nil

/-- Witness for C9: instantiating the scan characterization at the
concrete directory of the claim. -/
theorem scanSuffixes_spec_witness :
    (⟨1, false⟩ : SuffixInfo Nat) ∈ scanSuffixes natCmp (AppendCount.parse ⟨3⟩) "file"
      ["file", "file.1", "file.2.gz", "otherfile.1"] ∧
    (scanSuffixes natCmp (AppendCount.parse ⟨3⟩) "file"
      ["file", "file.1", "file.2.gz", "otherfile.1"]).Pairwise
        (fun a b => natCmp a.suffix b.suffix = .lt) := by
  have h := scanSuffixes_spec natCmp (AppendCount.parse ⟨3⟩) "file"
    ["file", "file.1", "file.2.gz", "otherfile.1"] natCmp_flip natCmp_trans (by decide)
  exact ⟨(h.1 ⟨1, false⟩).mpr ⟨"file.1", by decide, by decide⟩, h.2.1⟩

/-!
## Claim C2: round-trip of suffix values through their string form

First the `usize` side: printing with `natToChars` and re-parsing with
`parseUsizeChars` is the identity (for values that fit in 64 bits, as all
`usize` values do).
-/

theorem digitChar_facts (d : Nat) (hd : d < 10) :
    (Char.ofNat (48 + d)).isDigit = true ∧ (Char.ofNat (48 + d)).toNat = 48 + d := by
  interval_cases d <;> exact ⟨by decide, by decide⟩

theorem natToCharsAux_fuel_irrel :
    ∀ fuel fuel' n, n < fuel → n < fuel' →
      natToCharsAux fuel n = natToCharsAux fuel' n := by
  intro fuel
  induction fuel with
  | zero => intro fuel' n h _; exact absurd h (Nat.not_lt_zero n)
  | succ f ih =>
    intro fuel' n hn hn'
    cases fuel' with
    | zero => exact absurd hn' (Nat.not_lt_zero n)
    | succ f' =>
      simp only [natToCharsAux]
      by_cases h10 : n < 10
      · rw [if_pos h10, if_pos h10]
      · rw [if_neg h10, if_neg h10]
        have hdiv : n / 10 < n := Nat.div_lt_self (by omega) (by omega)
        rw [ih f' (n / 10) (by omega) (by omega)]

theorem natToChars_eq (n : Nat) :
    natToChars n = if n < 10 then [Char.ofNat (48 + n)]
      else natToChars (n / 10) ++ [Char.ofNat (48 + n % 10)] := by
  have hstep : natToCharsAux (n + 1) n =
      if n < 10 then [Char.ofNat (48 + n)]
      else natToCharsAux n (n / 10) ++ [Char.ofNat (48 + n % 10)] := rfl
  unfold natToChars
  rw [hstep]
  by_cases h10 : n < 10
  · rw [if_pos h10, if_pos h10]
  · rw [if_neg h10, if_neg h10]
    have hdiv : n / 10 < n := Nat.div_lt_self (by omega) (by omega)
    rw [natToCharsAux_fuel_irrel n (n / 10 + 1) (n / 10) (by omega) (by omega)]

theorem natToChars_facts (n : Nat) :
    natToChars n ≠ [] ∧ (∀ c ∈ natToChars n, c.isDigit = true) ∧
      digitsVal (natToChars n) = n := by
  induction n using Nat.strong_induction_on with
  | _ n ih =>
    rw [natToChars_eq]
    by_cases h10 : n < 10
    · rw [if_pos h10]
      obtain ⟨hd, ht⟩ := digitChar_facts n h10
      refine ⟨by simp, ?_, ?_⟩
      · intro c hc
        rw [List.mem_singleton] at hc
        rw [hc]
        exact hd
      · unfold digitsVal
        simp only [List.foldl_cons, List.foldl_nil, ht]
        omega
    · rw [if_neg h10]
      have hdiv : n / 10 < n := Nat.div_lt_self (by omega) (by omega)
      obtain ⟨hne, hdig, hval⟩ := ih (n / 10) hdiv
      obtain ⟨hd2, ht2⟩ := digitChar_facts (n % 10) (Nat.mod_lt n (by omega))
      refine ⟨by simp, ?_, ?_⟩
      · intro c hc
        rw [List.mem_append] at hc
        rcases hc with hc | hc
        · exact hdig c hc
        · rw [List.mem_singleton] at hc
          rw [hc]
          exact hd2
      · unfold digitsVal at hval ⊢
        rw [List.foldl_append]
        simp only [List.foldl_cons, List.foldl_nil, ht2, hval]
        omega

theorem natToChars_len :
    ∀ k : Nat, 1 ≤ k → ∀ n, n < 10 ^ k → (natToChars n).length ≤ k := by
  intro k
  induction k with
  | zero => intro h; exact absurd h (by omega)
  | succ k' ih =>
    intro _ n hn
    rw [natToChars_eq]
    by_cases h10 : n < 10
    · rw [if_pos h10]
      simp
    · rw [if_neg h10]
      have hk' : 1 ≤ k' := by
        rcases Nat.eq_zero_or_pos k' with h0 | h1
        · subst h0
          rw [pow_one] at hn
          omega
        · exact h1
      have hdivlt : n / 10 < 10 ^ k' := by
        rw [Nat.div_lt_iff_lt_mul (by omega : 0 < 10)]
        calc n < 10 ^ (k' + 1) := hn
          _ = 10 ^ k' * 10 := by rw [pow_succ]
      have hlen := ih hk' (n / 10) hdivlt
      rw [List.length_append]
      simp only [List.length_singleton]
      omega

theorem parseUsizeChars_natToChars (n : Nat) (h : n < 2 ^ 64) :
    parseUsizeChars (natToChars n) = some n := by
  obtain ⟨hne, hdig, hval⟩ := natToChars_facts n
  obtain ⟨c, cs', hcons⟩ := List.exists_cons_of_ne_nil hne
  have hcd : c.isDigit = true := hdig c (by rw [hcons]; exact List.mem_cons_self c cs')
  have hplus : ¬((natToChars n).head? = some '+') := by
    rw [hcons]
    simp only [List.head?_cons, Option.some.injEq]
    intro he
    rw [he] at hcd
    exact absurd hcd (by decide)
  unfold parseUsizeChars
  rw [if_neg hplus, if_neg hne, if_pos (List.all_eq_true.mpr hdig), hval, if_pos h]

theorem isDigit_not_ws (c : Char) (h : c.isDigit = true) : c.isWhitespace = false := by
  by_contra hw
  rw [Bool.not_eq_false] at hw
  simp only [Char.isWhitespace, Bool.or_eq_true, decide_eq_true_eq] at hw
  rcases hw with ((h1 | h1) | h1) | h1 <;> subst h1 <;> exact absurd h (by decide)

theorem digitsVal_replicate_zero (j : Nat) (cs : List Char) :
    digitsVal (List.replicate j '0' ++ cs) = digitsVal cs := by
  unfold digitsVal
  rw [List.foldl_append]
  congr 1
  induction j with
  | zero => rfl
  | succ j' ih =>
    rw [List.replicate_succ, List.foldl_cons]
    simpa using ih

theorem zeroPad_facts (w : Nat) (cs : List Char) (hlen : cs.length ≤ w)
    (hdig : ∀ c ∈ cs, c.isDigit = true) :
    (zeroPad w cs).length = w ∧ (∀ c ∈ zeroPad w cs, c.isDigit = true) ∧
      digitsVal (zeroPad w cs) = digitsVal cs := by
  unfold zeroPad
  refine ⟨?_, ?_, digitsVal_replicate_zero _ _⟩
  · rw [List.length_append, List.length_replicate]
    omega
  · intro c hc
    rw [List.mem_append] at hc
    rcases hc with hc | hc
    · rw [List.eq_of_mem_replicate hc]
      decide
    · exact hdig c hc

theorem fmt2_facts (v : Nat) (h : v < 100) :
    (fmt2 v).length = 2 ∧ (∀ c ∈ fmt2 v, c.isDigit = true) ∧
      digitsVal (fmt2 v) = v := by
  obtain ⟨hne, hdig, hval⟩ := natToChars_facts v
  have h2 : v < 10 ^ 2 := by
    have : (10 : Nat) ^ 2 = 100 := by norm_num
    omega
  have hlen : (natToChars v).length ≤ 2 := natToChars_len 2 (by omega) v h2
  obtain ⟨hl, hd, hv⟩ := zeroPad_facts 2 (natToChars v) hlen hdig
  exact ⟨hl, hd, by rw [fmt2] at *; rw [hv, hval]⟩

theorem fmtYear_facts (y : Int) (h0 : 0 ≤ y) (h1 : y ≤ 9999) :
    (fmtYear y).length = 4 ∧ (∀ c ∈ fmtYear y, c.isDigit = true) ∧
      digitsVal (fmtYear y) = y.toNat := by
  unfold fmtYear
  rw [if_pos ⟨h0, by omega⟩]
  obtain ⟨hne, hdig, hval⟩ := natToChars_facts y.toNat
  have h4 : y.toNat < 10 ^ 4 := by
    have : (10 : Nat) ^ 4 = 10000 := by norm_num
    omega
  have hlen : (natToChars y.toNat).length ≤ 4 := natToChars_len 4 (by omega) _ h4
  obtain ⟨hl, hd, hv⟩ := zeroPad_facts 4 _ hlen hdig
  exact ⟨hl, hd, by rw [hv, hval]⟩

theorem takeDigits_exact :
    ∀ (ds rest : List Char), (∀ c ∈ ds, c.isDigit = true) →
      takeDigits ds.length (ds ++ rest) = (ds, rest) := by
  intro ds
  induction ds with
  | nil => intro rest _; rfl
  | cons d ds' ih =>
    intro rest hdig
    have hd : d.isDigit = true := hdig d (List.mem_cons_self _ _)
    show takeDigits (ds'.length + 1) (d :: (ds' ++ rest)) = (d :: ds', rest)
    simp only [takeDigits]
    rw [if_pos hd, ih rest (fun c hc => hdig c (List.mem_cons_of_mem d hc))]

theorem scanNumber_exact (ds rest : List Char) (hne : ds ≠ [])
    (hdig : ∀ c ∈ ds, c.isDigit = true) (hval : digitsVal ds < 2 ^ 63) :
    scanNumber ds.length (ds ++ rest) = .ok (digitsVal ds, rest) := by
  obtain ⟨d, ds', hcons⟩ := List.exists_cons_of_ne_nil hne
  subst hcons
  show scanNumber (d :: ds').length (d :: (ds' ++ rest)) = _
  simp only [scanNumber]
  rw [if_pos (hdig d (List.mem_cons_self _ _))]
  have := takeDigits_exact (d :: ds') rest hdig
  rw [show ((d :: ds') ++ rest : List Char) = d :: (ds' ++ rest) from rfl] at this
  rw [this, if_pos hval]

theorem dropWhile_not_ws (d : Char) (tl : List Char) (hd : d.isWhitespace = false) :
    (d :: tl).dropWhile Char.isWhitespace = d :: tl := by
  rw [List.dropWhile_cons, hd]
  simp

theorem splitAtFirstDot_no_dot : ∀ cs : List Char, '.' ∉ cs →
    splitAtFirstDot cs = (cs, none) := by
  intro cs
  induction cs with
  | nil => intro _; rfl
  | cons c rest ih =>
    intro h
    have hc : ¬(c = '.') := fun he => h (he ▸ List.mem_cons_self c rest)
    simp only [splitAtFirstDot]
    rw [if_neg hc, ih (fun hm => h (List.mem_cons_of_mem c hm))]

theorem splitAtFirstDot_append : ∀ xs zs : List Char, '.' ∉ xs →
    splitAtFirstDot (xs ++ '.' :: zs) = (xs, some zs) := by
  intro xs
  induction xs with
  | nil =>
    intro zs _
    show splitAtFirstDot ('.' :: zs) = ([], some zs)
    simp [splitAtFirstDot]
  | cons x xs' ih =>
    intro zs h
    have hx : ¬(x = '.') := fun he => h (he ▸ List.mem_cons_self x xs')
    show splitAtFirstDot (x :: (xs' ++ '.' :: zs)) = (x :: xs', some zs)
    simp only [splitAtFirstDot]
    rw [if_neg hx, ih zs (fun hm => h (List.mem_cons_of_mem x hm))]

theorem formatItems_cons (it : FmtItem) (its : List FmtItem) (dt : CivilDT) :
    formatItems (it :: its) dt = formatItem dt it ++ formatItems its dt := by
  unfold formatItems
  rw [List.map_cons, List.flatten_cons]

theorem civilValid_unpack (dt : CivilDT) (hv : civilValidB dt = true) :
    0 ≤ dt.year ∧ dt.year ≤ 9999 ∧ 1 ≤ dt.month ∧ dt.month ≤ 12 ∧
      1 ≤ dt.day ∧ dt.day ≤ daysInMonth dt.year dt.month ∧
      dt.hour ≤ 23 ∧ dt.minute ≤ 59 ∧ dt.second ≤ 59 := by
  simp only [civilValidB, Bool.and_eq_true, decide_eq_true_eq] at hv
  tauto

theorem daysInMonth_le (y : Int) (m : Nat) : daysInMonth y m ≤ 31 := by
  unfold daysInMonth
  split_ifs <;> omega

theorem scan2_fmt2 (v : Nat) (h : v < 100) (tl : List Char) :
    scanNumber 2 ((fmt2 v ++ tl).dropWhile Char.isWhitespace) = .ok (v, tl) := by
  obtain ⟨hl, hd, hval⟩ := fmt2_facts v h
  have hne : fmt2 v ≠ [] := by
    intro he
    rw [he] at hl
    simp at hl
  obtain ⟨c, cs', hcons⟩ := List.exists_cons_of_ne_nil hne
  have hcd : c.isDigit = true := hd c (by rw [hcons]; exact List.mem_cons_self _ _)
  have hws := isDigit_not_ws c hcd
  rw [hcons, List.cons_append, dropWhile_not_ws c _ hws, ← List.cons_append, ← hcons]
  have hval63 : digitsVal (fmt2 v) < 2 ^ 63 := by
    rw [hval]
    have : (2 : Nat) ^ 63 = 9223372036854775808 := by norm_num
    omega
  have h2 : (2 : Nat) = (fmt2 v).length := hl.symm
  rw [h2, scanNumber_exact (fmt2 v) tl hne hd hval63, hval]

theorem yearScan_fmtYear (y : Int) (h0 : 0 ≤ y) (h1 : y ≤ 9999) (tl : List Char) :
    (fmtYear y ++ tl).dropWhile Char.isWhitespace = fmtYear y ++ tl ∧
    ¬((fmtYear y ++ tl).head? = some '-') ∧
    ¬((fmtYear y ++ tl).head? = some '+') ∧
    scanNumber 4 (fmtYear y ++ tl) = .ok (y.toNat, tl) := by
  obtain ⟨hl, hd, hval⟩ := fmtYear_facts y h0 h1
  have hne : fmtYear y ≠ [] := by
    intro he
    rw [he] at hl
    simp at hl
  obtain ⟨c, cs', hcons⟩ := List.exists_cons_of_ne_nil hne
  have hcd : c.isDigit = true := hd c (by rw [hcons]; exact List.mem_cons_self _ _)
  have hws := isDigit_not_ws c hcd
  have hval63 : digitsVal (fmtYear y) < 2 ^ 63 := by
    rw [hval]
    have : (2 : Nat) ^ 63 = 9223372036854775808 := by norm_num
    omega
  refine ⟨?_, ?_, ?_, ?_⟩
  · rw [hcons, List.cons_append]
    exact dropWhile_not_ws c _ hws
  · rw [hcons, List.cons_append]
    simp only [List.head?_cons, Option.some.injEq]
    intro he
    rw [he] at hcd
    exact absurd hcd (by decide)
  · rw [hcons, List.cons_append]
    simp only [List.head?_cons, Option.some.injEq]
    intro he
    rw [he] at hcd
    exact absurd hcd (by decide)
  · have h4 : (4 : Nat) = (fmtYear y).length := hl.symm
    rw [h4, scanNumber_exact (fmtYear y) tl hne hd hval63, hval]

theorem setIfConsistent_ok {α : Type} [DecidableEq α] {old : Option α} {v : α}
    (hold : ∀ w, old = some w → w = v) :
    ∃ w, setIfConsistent old v = .ok (some w) ∧ w = v := by
  cases old with
  | none => exact ⟨v, rfl, rfl⟩
  | some w =>
    have hwv := hold w rfl
    refine ⟨w, ?_, hwv⟩
    simp [setIfConsistent, hwv]

theorem agrees_set_year {p : Parsed} {dt : CivilDT} (hag : agrees p dt) {x : Int}
    (hx : x = dt.year) : agrees { p with year := some x } dt := by
  obtain ⟨_, h2, h3, h4, h5, h6⟩ := hag
  exact ⟨fun y hy => by injection hy with h; rw [← h, hx], h2, h3, h4, h5, h6⟩

theorem agrees_set_month {p : Parsed} {dt : CivilDT} (hag : agrees p dt) {x : Nat}
    (hx : x = dt.month) : agrees { p with month := some x } dt := by
  obtain ⟨h1, _, h3, h4, h5, h6⟩ := hag
  exact ⟨h1, fun v hv => by injection hv with h; rw [← h, hx], h3, h4, h5, h6⟩

theorem agrees_set_day {p : Parsed} {dt : CivilDT} (hag : agrees p dt) {x : Nat}
    (hx : x = dt.day) : agrees { p with day := some x } dt := by
  obtain ⟨h1, h2, _, h4, h5, h6⟩ := hag
  exact ⟨h1, h2, fun v hv => by injection hv with h; rw [← h, hx], h4, h5, h6⟩

theorem agrees_set_hour {p : Parsed} {dt : CivilDT} (hag : agrees p dt) {x : Nat}
    (hx : x = dt.hour) : agrees { p with hour := some x } dt := by
  obtain ⟨h1, h2, h3, _, h5, h6⟩ := hag
  exact ⟨h1, h2, h3, fun v hv => by injection hv with h; rw [← h, hx], h5, h6⟩

theorem agrees_set_minute {p : Parsed} {dt : CivilDT} (hag : agrees p dt) {x : Nat}
    (hx : x = dt.minute) : agrees { p with minute := some x } dt := by
  obtain ⟨h1, h2, h3, h4, _, h6⟩ := hag
  exact ⟨h1, h2, h3, h4, fun v hv => by injection hv with h; rw [← h, hx], h6⟩

theorem agrees_set_second {p : Parsed} {dt : CivilDT} (hag : agrees p dt) {x : Nat}
    (hx : x = dt.second) : agrees { p with second := some x } dt := by
  obtain ⟨h1, h2, h3, h4, h5, _⟩ := hag
  exact ⟨h1, h2, h3, h4, h5, fun v hv => by injection hv with h; rw [← h, hx]⟩

theorem parseItems_format (dt : CivilDT) (hv : civilValidB dt = true) :
    ∀ (its : List FmtItem) (rest : List Char) (p : Parsed),
      (∀ it ∈ its, tameItemB it = true) → agrees p dt →
      ∃ p', parseItems its (formatItems its dt ++ rest) p = .ok (p', rest) ∧
        agrees p' dt := by
  obtain ⟨hy0, hy1, hm1, hm2, hd1, hd2, hh, hmi, hs⟩ := civilValid_unpack dt hv
  have hdle := daysInMonth_le dt.year dt.month
  intro its
  induction its with
  | nil =>
    intro rest p _ hag
    exact ⟨p, rfl, hag⟩
  | cons it its' ih =>
    intro rest p htame hag
    have htame' : ∀ x ∈ its', tameItemB x = true :=
      fun x hx => htame x (List.mem_cons_of_mem it hx)
    have htameit : tameItemB it = true := htame it (List.mem_cons_self it its')
    rw [formatItems_cons, List.append_assoc]
    cases it with
    | space c => exact absurd htameit (by simp [tameItemB])
    | bad => exact absurd htameit (by simp [tameItemB])
    | lit c =>
      show ∃ p', parseItems (.lit c :: its')
        (c :: (formatItems its' dt ++ rest)) p = .ok (p', rest) ∧ agrees p' dt
      simp only [parseItems]
      rw [if_pos trivial]
      exact ih rest p htame' hag
    | numYear =>
      obtain ⟨hdw, hm, hp, hscan⟩ :=
        yearScan_fmtYear dt.year hy0 hy1 (formatItems its' dt ++ rest)
      have hold : ∀ z, p.year = some z → z = (dt.year.toNat : Int) := by
        intro z hz
        rw [hag.1 z hz, Int.toNat_of_nonneg hy0]
      obtain ⟨w, hw, hwv⟩ := setIfConsistent_ok (v := (dt.year.toNat : Int)) hold
      simp only [parseItems, formatItem]
      rw [hdw, if_neg hm, if_neg hp, hscan]
      dsimp only
      have hrange : -(2 ^ 31 : Int) ≤ (dt.year.toNat : Int) ∧
          (dt.year.toNat : Int) < (2 ^ 31 : Int) := by
        have h31 : (2 : Int) ^ 31 = 2147483648 := by norm_num
        omega
      rw [if_pos hrange, hw]
      dsimp only
      obtain ⟨p', hp', hag'⟩ := ih rest { p with year := some w } htame'
        (agrees_set_year hag (by rw [hwv, Int.toNat_of_nonneg hy0]))
      exact ⟨p', hp', hag'⟩
    | numMonth =>
      simp only [parseItems, formatItem]
      rw [scan2_fmt2 dt.month (by omega) (formatItems its' dt ++ rest)]
      dsimp only
      obtain ⟨w, hw, hwv⟩ := setIfConsistent_ok (v := dt.month) (hag.2.1)
      rw [hw]
      exact ih rest { p with month := some w } htame' (agrees_set_month hag hwv)
    | numDay =>
      simp only [parseItems, formatItem]
      rw [scan2_fmt2 dt.day (by omega) (formatItems its' dt ++ rest)]
      dsimp only
      obtain ⟨w, hw, hwv⟩ := setIfConsistent_ok (v := dt.day) (hag.2.2.1)
      rw [hw]
      exact ih rest { p with day := some w } htame' (agrees_set_day hag hwv)
    | numHour =>
      simp only [parseItems, formatItem]
      rw [scan2_fmt2 dt.hour (by omega) (formatItems its' dt ++ rest)]
      dsimp only
      obtain ⟨w, hw, hwv⟩ := setIfConsistent_ok (v := dt.hour) (hag.2.2.2.1)
      rw [hw]
      exact ih rest { p with hour := some w } htame' (agrees_set_hour hag hwv)
    | numMinute =>
      simp only [parseItems, formatItem]
      rw [scan2_fmt2 dt.minute (by omega) (formatItems its' dt ++ rest)]
      dsimp only
      obtain ⟨w, hw, hwv⟩ := setIfConsistent_ok (v := dt.minute) (hag.2.2.2.2.1)
      rw [hw]
      exact ih rest { p with minute := some w } htame' (agrees_set_minute hag hwv)
    | numSecond =>
      simp only [parseItems, formatItem]
      rw [scan2_fmt2 dt.second (by omega) (formatItems its' dt ++ rest)]
      dsimp only
      obtain ⟨w, hw, hwv⟩ := setIfConsistent_ok (v := dt.second) (hag.2.2.2.2.2)
      rw [hw]
      exact ih rest { p with second := some w } htame' (agrees_set_second hag hwv)

theorem agrees_empty (dt : CivilDT) : agrees {} dt :=
  ⟨fun _ hy => Option.noConfusion hy, fun _ hy => Option.noConfusion hy,
   fun _ hy => Option.noConfusion hy, fun _ hy => Option.noConfusion hy,
   fun _ hy => Option.noConfusion hy, fun _ hy => Option.noConfusion hy⟩

theorem chronoParseItems_format (dt : CivilDT) (hv : civilValidB dt = true)
    (its : List FmtItem) (htame : ∀ it ∈ its, tameItemB it = true) :
    ∃ p', chronoParseItems its (formatItems its dt) = .ok p' ∧ agrees p' dt := by
  obtain ⟨p', hp', hag'⟩ := parseItems_format dt hv its [] {} htame (agrees_empty dt)
  rw [List.append_nil] at hp'
  refine ⟨p', ?_, hag'⟩
  unfold chronoParseItems
  rw [hp']
  rfl

theorem isDigit_ne_dot {c : Char} (h : c.isDigit = true) : ¬(c = '.') := by
  intro he
  rw [he] at h
  exact absurd h (by decide)

theorem formatItems_no_dot (dt : CivilDT) (hv : civilValidB dt = true) :
    ∀ its : List FmtItem, (∀ it ∈ its, tameItemB it = true) →
      '.' ∉ formatItems its dt := by
  obtain ⟨hy0, hy1, hm1, hm2, hd1, hd2, hh, hmi, hs⟩ := civilValid_unpack dt hv
  have hdle := daysInMonth_le dt.year dt.month
  intro its
  induction its with
  | nil => intro _ h; simp [formatItems] at h
  | cons it its' ih =>
    intro htame hmem
    have htame' : ∀ x ∈ its', tameItemB x = true :=
      fun x hx => htame x (List.mem_cons_of_mem it hx)
    have htameit : tameItemB it = true := htame it (List.mem_cons_self it its')
    rw [formatItems_cons, List.mem_append] at hmem
    rcases hmem with hmem | hmem
    · cases it with
      | space c => exact absurd htameit (by simp [tameItemB])
      | bad => exact absurd htameit (by simp [tameItemB])
      | lit c =>
        simp only [formatItem, List.mem_singleton] at hmem
        simp only [tameItemB, Bool.and_eq_true, bne_iff_ne] at htameit
        exact htameit.1 hmem.symm
      | numYear =>
        obtain ⟨_, hd, _⟩ := fmtYear_facts dt.year hy0 hy1
        exact isDigit_ne_dot (hd _ hmem) rfl
      | numMonth =>
        obtain ⟨_, hd, _⟩ := fmt2_facts dt.month (by omega)
        exact isDigit_ne_dot (hd _ hmem) rfl
      | numDay =>
        obtain ⟨_, hd, _⟩ := fmt2_facts dt.day (by omega)
        exact isDigit_ne_dot (hd _ hmem) rfl
      | numHour =>
        obtain ⟨_, hd, _⟩ := fmt2_facts dt.hour (by omega)
        exact isDigit_ne_dot (hd _ hmem) rfl
      | numMinute =>
        obtain ⟨_, hd, _⟩ := fmt2_facts dt.minute (by omega)
        exact isDigit_ne_dot (hd _ hmem) rfl
      | numSecond =>
        obtain ⟨_, hd, _⟩ := fmt2_facts dt.second (by omega)
        exact isDigit_ne_dot (hd _ hmem) rfl
    · exact ih htame' hmem

theorem toNaiveDate_agrees (p : Parsed) (dt : CivilDT) (hag : agrees p dt)
    (hv : civilValidB dt = true) :
    toNaiveDate p = .ok (dt.year, dt.month, dt.day) ∨
      toNaiveDate p = .error .notEnough := by
  obtain ⟨hy0, hy1, hm1, hm2, hd1, hd2, hh, hmi, hs⟩ := civilValid_unpack dt hv
  unfold toNaiveDate
  rcases h1 : p.year with _ | y <;> rcases h2 : p.month with _ | m <;>
    rcases h3 : p.day with _ | d
  · exact .inr rfl
  · exact .inr rfl
  · exact .inr rfl
  · exact .inr rfl
  · exact .inr rfl
  · exact .inr rfl
  · exact .inr rfl
  · have hy := hag.1 y h1
    have hm := hag.2.1 m h2
    have hd := hag.2.2.1 d h3
    subst hy hm hd
    have hvalid : ymdValid dt.year dt.month dt.day = true := by
      simp only [ymdValid, Bool.and_eq_true, decide_eq_true_eq]
      omega
    left
    dsimp only
    rw [if_pos hvalid]

theorem toNaiveTime_agrees (p : Parsed) (dt : CivilDT) (hag : agrees p dt)
    (hv : civilValidB dt = true) :
    (∃ r, toNaiveTime p = .ok r) ∨ toNaiveTime p = .error .notEnough := by
  obtain ⟨hy0, hy1, hm1, hm2, hd1, hd2, hh, hmi, hs⟩ := civilValid_unpack dt hv
  unfold toNaiveTime
  rcases h4 : p.hour with _ | hr
  · exact .inr rfl
  · have hhv := hag.2.2.2.1 hr h4
    dsimp only
    rw [if_neg (by omega)]
    rcases h5 : p.minute with _ | mi
    · exact .inr rfl
    · have hmv := hag.2.2.2.2.1 mi h5
      dsimp only
      rw [if_neg (by omega)]
      rcases h6 : p.second with _ | sec
      · exact .inl ⟨_, rfl⟩
      · have hsv := hag.2.2.2.2.2 sec h6
        dsimp only
        rw [if_pos (by omega)]
        exact .inl ⟨_, rfl⟩

theorem ndtParse_format (fmtChars : List Char) (dt : CivilDT)
    (htame : ∀ it ∈ strftimeItems fmtChars, tameItemB it = true)
    (hv : civilValidB dt = true) :
    (∃ r, naiveDateTimeParseFromStr fmtChars
        (formatItems (strftimeItems fmtChars) dt) = .ok r) ∨
      naiveDateTimeParseFromStr fmtChars
        (formatItems (strftimeItems fmtChars) dt) = .error .notEnough := by
  obtain ⟨p', hp', hag'⟩ := chronoParseItems_format dt hv (strftimeItems fmtChars) htame
  unfold naiveDateTimeParseFromStr
  rw [hp']
  dsimp only
  rcases toNaiveDate_agrees p' dt hag' hv with hdate | hdate
  · rw [hdate]
    rcases toNaiveTime_agrees p' dt hag' hv with ⟨r, htime⟩ | htime
    · rw [htime]
      exact .inl ⟨_, rfl⟩
    · rw [htime]
      exact .inr rfl
  · rw [hdate]
    exact .inr rfl

/-- C2: round-trip.  For `AppendCount`, parsing the decimal string form of
any `usize` value returns it.  For `AppendTimestamp`, any suffix whose
timestamp string was produced by the scheme's format (within the modelled
strftime fragment, without `'.'` — the crate's documented restriction —
and from a real civil instant with year `0..=9999`), with any `usize`
number, parses back to itself from its `Display` form. -/
theorem parse_toString_roundtrip :
    (∀ (self : AppendCount) (n : Nat), n < 2 ^ 64 →
      self.parse (String.mk (natToChars n)) = some n) ∧
    (∀ (fmt : String) (fl : FileLimit) (df : DateFrom) (dt : CivilDT)
        (num : Option Nat),
      (∀ it ∈ strftimeItems fmt.data, tameItemB it = true) →
      civilValidB dt = true →
      (∀ k, num = some k → k < 2 ^ 64) →
      (AppendTimestamp.mk fmt fl df).parse
          (tsDisplay ⟨String.mk (formatItems (strftimeItems fmt.data) dt), num⟩) =
        some ⟨String.mk (formatItems (strftimeItems fmt.data) dt), num⟩) := by
  constructor
  · intro self n hn
    show parseUsizeChars (String.mk (natToChars n)).data = some n
    exact parseUsizeChars_natToChars n hn
  · intro fmt fl df dt num htame hv hnum
    have hnodot : '.' ∉ formatItems (strftimeItems fmt.data) dt :=
      formatItems_no_dot dt hv _ htame
    have hsucc : (match naiveDateTimeParseFromStr fmt.data
          (formatItems (strftimeItems fmt.data) dt) with
        | .ok _ => true
        | .error e => e == .notEnough) = true := by
      rcases ndtParse_format fmt.data dt htame hv with ⟨r, hr⟩ | hr
      · rw [hr]
      · rw [hr]
        rfl
    cases num with
    | none =>
      show (AppendTimestamp.mk fmt fl df).parse
          (String.mk (formatItems (strftimeItems fmt.data) dt)) = _
      simp only [AppendTimestamp.parse]
      rw [splitAtFirstDot_no_dot _ hnodot]
      dsimp only
      rw [hsucc]
      rfl
    | some k =>
      have hk : k < 2 ^ 64 := hnum k rfl
      show (AppendTimestamp.mk fmt fl df).parse
          (String.mk (formatItems (strftimeItems fmt.data) dt) ++ "." ++
            String.mk (natToChars k)) = _
      simp only [AppendTimestamp.parse]
      have hdata : (String.mk (formatItems (strftimeItems fmt.data) dt) ++ "." ++
            String.mk (natToChars k)).data =
          formatItems (strftimeItems fmt.data) dt ++ '.' :: natToChars k := by
        rw [String.data_append, String.data_append, List.append_assoc]
        rfl
      rw [hdata]
      rw [splitAtFirstDot_append _ _ hnodot]
      dsimp only
      rw [parseUsizeChars_natToChars k hk]
      dsimp only
      rw [hsucc]
      rfl

/-- Witness for C2 at concrete values: `42` round-trips through
`AppendCount`, and the suffix `{20220201T101010, 1}` formatted from the
instant 2022-02-01 10:10:10 round-trips through `AppendTimestamp` with the
default format. -/
theorem parse_toString_roundtrip_witness :
    AppendCount.parse ⟨3⟩ (String.mk (natToChars 42)) = some 42 ∧
    (AppendTimestamp.mk "%Y%m%dT%H%M%S" .unlimited .now).parse
        (tsDisplay ⟨String.mk (formatItems (strftimeItems "%Y%m%dT%H%M%S".data)
          ⟨2022, 2, 1, 10, 10, 10⟩), some 1⟩) =
      some ⟨String.mk (formatItems (strftimeItems "%Y%m%dT%H%M%S".data)
        ⟨2022, 2, 1, 10, 10, 10⟩), some 1⟩ := by
  constructor
  · exact parse_toString_roundtrip.1 ⟨3⟩ 42 (by decide)
  · exact parse_toString_roundtrip.2 "%Y%m%dT%H%M%S" .unlimited .now
      ⟨2022, 2, 1, 10, 10, 10⟩ (some 1) (by decide) (by decide)
      (fun k hk => by injection hk with h; omega)

end FileRotate
